import Mathlib

/-!
Verification of the PII entity-detection and masking engine of
`utils.py` (class `PIIMasker`).  The Python code is shallowly embedded:
text is a `List Char`, the regular-expression patterns are given an
executable backtracking semantics that mirrors Python `re` (leftmost
match, greedy quantifiers, ordered alternation, `\b` word boundaries),
and every method of the class becomes a Lean function with the same
structure and, where Lean allows, the same name.
-/

namespace EmailClassification

/-! ### Python string primitives -/

/-- Python slice `t[a:b]` for non-negative `a`, `b` (clamping like Python). -/
def pySlice (t : List Char) (a b : Nat) : List Char :=
  (t.drop a).take (b - a)

/-- Python `str.lower()` (ASCII range, which is all the engine's keywords use). -/
def pyLower (t : List Char) : List Char := t.map Char.toLower

/-- Python `str.upper()` (ASCII range). -/
def pyUpper (t : List Char) : List Char := t.map Char.toUpper

/-- Python `str.isdigit()`: non-empty and all digits. -/
def pyIsDigitStr (t : List Char) : Bool := !t.isEmpty && t.all Char.isDigit

/-- Python whitespace characters (the ASCII set used by `str.strip` and `\s`). -/
def isPySpace (c : Char) : Bool :=
  c = ' ' || c = '\t' || c = '\n' || c = '\r' || c = '\x0b' || c = '\x0c'

/-- Python `str.strip()`. -/
def pyStrip (t : List Char) : List Char :=
  ((t.dropWhile isPySpace).reverse.dropWhile isPySpace).reverse

/-- Decides whether `p` is a leading segment of `t` (Python `str.startswith`). -/
def isPre : List Char → List Char → Bool
  | [], _ => true
  | _ :: _, [] => false
  | a :: as, b :: bs => a = b && isPre as bs

/-- Python substring containment `needle in hay`. -/
def containsSub (hay needle : List Char) : Bool :=
  (List.range (hay.length + 1)).any (fun p => isPre needle (hay.drop p))

/-- Python `int(...)` on a string of decimal digits. -/
def toNatDigits (t : List Char) : Nat :=
  t.foldl (fun n c => n * 10 + (c.toNat - '0'.toNat)) 0

/-- Python `\w` (ASCII range): letters, digits, underscore. -/
def isWordChar (c : Char) : Bool := c.isAlphanum || c = '_'

/-! ### Regular-expression engine

A small backtracking matcher faithful to Python `re` on the pattern
subset `utils.py` uses: character classes, concatenation, ordered
alternation, greedy `?`, greedy bounded repetition `{m,n}`, greedy
class repetition (`+`, `{m,}`, `{m,n}` over a one-character class),
the zero-width word boundary `\b` and the end anchor `$`.

`ends r s i` returns every position at which a match of `r` starting
at `i` in `s` can end, ordered by the backtracking preference Python
uses (greedy: longer attempt first, left alternative first).  Its head
is therefore the end of the match Python's engine reports. -/

inductive Rx where
  | eps
  | cls (p : Char → Bool)
  | cat (a b : Rx)
  | alt (a b : Rx)
  | opt (a : Rx)
  | rep (a : Rx) (lo hi : Nat)
  | clsRep (p : Char → Bool) (lo hi : Nat)
  | clsGe (p : Char → Bool) (lo : Nat)
  | wb
  | eos

/-- Deduplication keeping the first occurrence (preserves preference order). -/
def dedupFirst (seen : List Nat) : List Nat → List Nat
  | [] => []
  | a :: l => if a ∈ seen then dedupFirst seen l else a :: dedupFirst (a :: seen) l

/-- Length of the run of characters of class `p` in `s` starting at `i`. -/
def runLen (p : Char → Bool) (s : List Char) (i : Nat) : Nat :=
  ((s.drop i).takeWhile p).length

/-- End positions for a greedy class repetition with `lo ≤ k ≤ cap` characters. -/
def clsRepEnds (p : Char → Bool) (lo cap : Nat) (s : List Char) (i : Nat) : List Nat :=
  let r := min (runLen p s i) cap
  if r < lo then [] else (List.range (r + 1 - lo)).map (fun k => i + r - k)

/-- Greedy bounded repetition of a subexpression whose end positions are
computed by `f`; preference order tries more iterations first. -/
def repEnds (f : Nat → List Nat) : Nat → Nat → Nat → List Nat
  | lo, 0, i => if lo = 0 then [i] else []
  | lo, hi + 1, i =>
    let cont := (f i).flatMap (fun j => repEnds f (lo - 1) hi j)
    if lo = 0 then dedupFirst [] (cont ++ [i]) else dedupFirst [] cont

/-- Word-boundary test at position `i` of `s` (Python `\b`). -/
def atWb (s : List Char) (i : Nat) : Bool :=
  let before := if h : 0 < i ∧ i - 1 < s.length then isWordChar (s.get ⟨i - 1, h.2⟩) else false
  let after := if h : i < s.length then isWordChar (s.get ⟨i, h⟩) else false
  before != after

def Rx.ends : Rx → List Char → Nat → List Nat
  | .eps, _, i => [i]
  | .cls p, s, i =>
    if h : i < s.length then (if p (s.get ⟨i, h⟩) then [i + 1] else []) else []
  | .cat a b, s, i => dedupFirst [] ((a.ends s i).flatMap (fun j => b.ends s j))
  | .alt a b, s, i => dedupFirst [] (a.ends s i ++ b.ends s i)
  | .opt a, s, i => dedupFirst [] (a.ends s i ++ [i])
  | .rep a lo hi, s, i => repEnds (fun j => a.ends s j) lo hi i
  | .clsRep p lo hi, s, i => clsRepEnds p lo hi s i
  | .clsGe p lo, s, i => clsRepEnds p lo (s.length - i) s i
  | .wb, s, i => if atWb s i then [i] else []
  | .eos, s, i => if i = s.length then [i] else []

/-- The end of the match Python's engine reports at start position `i`
(`none` when no match starts at `i`). -/
def Rx.matchEnd (r : Rx) (s : List Char) (i : Nat) : Option Nat :=
  (r.ends s i).head?

/-- Python `re.finditer`: scan start positions left to right, emit each
match's span, resume scanning at the match's end. -/
def finditerAux (r : Rx) (s : List Char) : Nat → Nat → List (Nat × Nat)
  | 0, _ => []
  | fuel + 1, i =>
    if i ≤ s.length then
      match r.matchEnd s i with
      | some e => (i, e) :: finditerAux r s fuel (if i < e then e else i + 1)
      | none => finditerAux r s fuel (i + 1)
    else []

def finditer (r : Rx) (s : List Char) : List (Nat × Nat) :=
  finditerAux r s (s.length + 1) 0

/-- Python `re.search` as a Boolean: a match of `r` starts somewhere in `s`. -/
def rxSearch (r : Rx) (s : List Char) : Bool :=
  (List.range (s.length + 1)).any (fun p => !(r.ends s p).isEmpty)

/-- Concatenation of a list of regexes, left to right. -/
def rxSeq (l : List Rx) : Rx := l.foldr Rx.cat Rx.eps

/-! ### The pattern library of `PIIMasker._initialize_patterns` -/

/-- Class `[A-Za-z0-9._%+-]` of the email local part. -/
def emailLocalCh (c : Char) : Bool :=
  c.isAlphanum || c = '.' || c = '_' || c = '%' || c = '+' || c = '-'

/-- Class `[A-Za-z0-9.-]` of the email domain. -/
def emailDomainCh (c : Char) : Bool := c.isAlphanum || c = '.' || c = '-'

/-- Class `[A-Z|a-z]` of the email top-level domain (the source's class
literally contains `|`). -/
def emailTldCh (c : Char) : Bool :=
  ('A' ≤ c && c ≤ 'Z') || c = '|' || ('a' ≤ c && c ≤ 'z')

/-- Class `[-\s.]`. -/
def dashSpaceDotCh (c : Char) : Bool := c = '-' || isPySpace c || c = '.'

/-- Class `[\s-]`. -/
def spaceDashCh (c : Char) : Bool := isPySpace c || c = '-'

/-- Class `[/\s-]`. -/
def slashSpaceDashCh (c : Char) : Bool := c = '/' || isPySpace c || c = '-'

/-- Pattern `email`:
`\b[A-Za-z0-9._%+-]+@[A-Za-z0-9.-]+\.[A-Z|a-z]{2,}\b`. -/
def emailRx : Rx := rxSeq
  [.wb, .clsGe emailLocalCh 1, .cls (· = '@'), .clsGe emailDomainCh 1,
   .cls (· = '.'), .clsGe emailTldCh 2, .wb]

/-- Pattern `phone_number`:
`\b(?:(?:\+|00)[1-9]\d{0,3}[-\s.]?)?(?:\(?\d{1,5}\)?[-\s.]?)?\d{1,5}(?:[-\s.]\d{1,5}){1,4}\b`. -/
def phoneRx : Rx := rxSeq
  [.wb,
   .opt (rxSeq [.alt (.cls (· = '+')) (.cat (.cls (· = '0')) (.cls (· = '0'))),
     .cls (fun c => '1' ≤ c && c ≤ '9'), .clsRep Char.isDigit 0 3,
     .opt (.cls dashSpaceDotCh)]),
   .opt (rxSeq [.opt (.cls (· = '(')), .clsRep Char.isDigit 1 5,
     .opt (.cls (· = ')')), .opt (.cls dashSpaceDotCh)]),
   .clsRep Char.isDigit 1 5,
   .rep (.cat (.cls dashSpaceDotCh) (.clsRep Char.isDigit 1 5)) 1 4,
   .wb]

/-- Pattern `credit_debit_no`: `\b(?:(?:\d{4}[\s-]?){3}\d{4}|\d{13,19})\b`. -/
def creditRx : Rx := rxSeq
  [.wb,
   .alt (.cat (.rep (.cat (.clsRep Char.isDigit 4 4) (.opt (.cls spaceDashCh))) 3 3)
              (.clsRep Char.isDigit 4 4))
        (.clsRep Char.isDigit 13 19),
   .wb]

/-- Pattern `cvv_no`: `\b\d{3,4}\b`. -/
def cvvRx : Rx := rxSeq [.wb, .clsRep Char.isDigit 3 4, .wb]

/-- Subpattern `(0[1-9]|1[0-2])` (a month). -/
def monthRx : Rx :=
  .alt (.cat (.cls (· = '0')) (.cls (fun c => '1' ≤ c && c ≤ '9')))
       (.cat (.cls (· = '1')) (.cls (fun c => '0' ≤ c && c ≤ '2')))

/-- Pattern `expiry_no`: `\b(0[1-9]|1[0-2])[/\s-]([0-9]{2}|20[0-9]{2})\b`. -/
def expiryRx : Rx := rxSeq
  [.wb, monthRx, .cls slashSpaceDashCh,
   .alt (.clsRep Char.isDigit 2 2)
        (.cat (.cls (· = '2')) (.cat (.cls (· = '0')) (.clsRep Char.isDigit 2 2))),
   .wb]

/-- Pattern `aadhar_num`: `\b\d{4}\s?\d{4}\s?\d{4}\b`. -/
def aadharRx : Rx := rxSeq
  [.wb, .clsRep Char.isDigit 4 4, .opt (.cls isPySpace), .clsRep Char.isDigit 4 4,
   .opt (.cls isPySpace), .clsRep Char.isDigit 4 4, .wb]

/-- Pattern `dob`:
`\b(0[1-9]|[12][0-9]|3[01])[/\s-](0[1-9]|1[0-2])[/\s-](?:19|20)\d\d\b`. -/
def dobRx : Rx := rxSeq
  [.wb,
   .alt (.cat (.cls (· = '0')) (.cls (fun c => '1' ≤ c && c ≤ '9')))
     (.alt (.cat (.cls (fun c => c = '1' || c = '2')) (.cls Char.isDigit))
           (.cat (.cls (· = '3')) (.cls (fun c => c = '0' || c = '1')))),
   .cls slashSpaceDashCh, monthRx, .cls slashSpaceDashCh,
   .alt (.cat (.cls (· = '1')) (.cls (· = '9'))) (.cat (.cls (· = '2')) (.cls (· = '0'))),
   .cls Char.isDigit, .cls Char.isDigit,
   .wb]

/-- The dictionary `self.patterns`, in insertion order. -/
def patterns : List (String × Rx) :=
  [("email", emailRx), ("phone_number", phoneRx), ("credit_debit_no", creditRx),
   ("cvv_no", cvvRx), ("expiry_no", expiryRx), ("aadhar_num", aadharRx), ("dob", dobRx)]

/-! ### Data model -/

/-- The `Entity` value object of `utils.py`.  Python's field `end` is a Lean
keyword, so it is embedded as `stop`; `value` is the matched substring. -/
structure Entity where
  start : Nat
  stop : Nat
  entity_type : String
  value : List Char
deriving DecidableEq, Repr

/-- Serialization `Entity.to_dict`. -/
structure EntityDict where
  position : Nat × Nat
  classification : String
  entity : List Char
deriving DecidableEq, Repr

def Entity.to_dict (e : Entity) : EntityDict :=
  ⟨(e.start, e.stop), e.entity_type, e.value⟩

/-- Python length `end - start` of an entity, as an integer. -/
def entLen (e : Entity) : Int := (e.stop : Int) - (e.start : Int)

/-! ### Contextual verifiers -/

/-- `PIIMasker._verify_with_context`. -/
def verify_with_context (text : List Char) (s e : Nat)
    (keywords : List (List Char)) (window : Nat := 50) : Bool :=
  let context_before := pyLower (pySlice text (s - window) s)
  let context_after := pyLower (pySlice text e (min text.length (e + window)))
  keywords.any (fun k => containsSub context_before k || containsSub context_after k)

def cardKeywords : List (List Char) :=
  ["card", "credit", "debit", "visa", "mastercard",
   "payment", "amex", "account no", "card no"].map String.toList

/-- `PIIMasker.verify_credit_card`: accept only on a card keyword in the
50-character context windows. -/
def verify_credit_card (text : List Char) (s e : Nat) : Bool :=
  let context_before := pyLower (pySlice text (s - 50) s)
  let context_after := pyLower (pySlice text e (min text.length (e + 50)))
  cardKeywords.any (fun k => containsSub context_before k || containsSub context_after k)

def cvvKeywords : List (List Char) :=
  ["cvv", "cvc", "csc", "security code", "card verification",
   "verification no", "security", "security number", "cv2",
   "card code", "security value"].map String.toList

def yearKeywords : List (List Char) :=
  ["year", "born", "established", "since"].map String.toList

def cardCtxKeywords : List (List Char) :=
  ["card", "credit", "visa", "mastercard", "amex", "discover"].map String.toList

/-- The `re.search(r'\b(0[1-9]|1[0-2])[/\s-]$', ...)` pattern of `verify_cvv`. -/
def expiryTailRx : Rx := rxSeq [.wb, monthRx, .cls slashSpaceDashCh, .eos]

/-- `PIIMasker.verify_cvv`. -/
def verify_cvv (text : List Char) (s e : Nat) : Bool :=
  let value := pySlice text s e
  let char_before := if 0 < s then pySlice text (s - 1) s else []
  let char_after := if e < text.length then pySlice text e (e + 1) else []
  if pyIsDigitStr char_before || pyIsDigitStr char_after then false
  else if !pyIsDigitStr value || value.length < 3 || value.length > 4 then false
  else
    let context_before := pyLower (pySlice text (s - 50) s)
    let context_after := pyLower (pySlice text e (min text.length (e + 50)))
    let is_cvv_context := cvvKeywords.any
      (fun k => containsSub context_before k || containsSub context_after k)
    if is_cvv_context then true
    else if value.length = 4 && 1900 ≤ toNatDigits value && toNatDigits value ≤ 2100
        && yearKeywords.any
          (fun k => containsSub context_before k || containsSub context_after k) then
      false
    else if rxSearch expiryTailRx (pyStrip context_before) then false
    else
      let card_context := cardCtxKeywords.any
        (fun k => containsSub context_before k || containsSub context_after k)
      is_cvv_context || (card_context && (value.length = 3 || value.length = 4))

def phoneKeywords : List (List Char) :=
  ["phone", "call", "tel", "telephone", "contact", "dial", "mobile",
   "cell", "number", "direct", "office", "fax", "reach me at",
   "call me", "contact me", "line", "extension", "ext", "phone number"].map String.toList

/-- Class `[-\s.()\\+]` of the phone-formatting search in `verify_phone_number`. -/
def phonePunctCh (c : Char) : Bool :=
  c = '-' || isPySpace c || c = '.' || c = '(' || c = ')' || c = '\\' || c = '+'

/-- `PIIMasker.verify_phone_number`. -/
def verify_phone_number (text : List Char) (s e : Nat) : Bool :=
  let value := pySlice text s e
  let digit_count := (value.filter Char.isDigit).length
  if digit_count < 7 || digit_count > 15 then false
  else
    let context_before := pyLower (pySlice text (s - 50) s)
    let context_after := pyLower (pySlice text e (min text.length (e + 50)))
    let has_phone_context := phoneKeywords.any
      (fun k => containsSub context_before k || containsSub context_after k)
    let has_phone_formatting := value.any phonePunctCh
    let has_intl := isPre ['+'] value || isPre ['0', '0'] value
    has_phone_context || (has_phone_formatting && digit_count ≥ 7) || has_intl
      || (digit_count = 10 && has_phone_formatting)

/-! ### The pattern detector `detect_regex_entities` -/

/-- The verifier dispatch of the detection loop (lines 93–106 of `utils.py`);
`email`, `expiry_no` and `aadhar_num` have no verifier. -/
def matchAllowed (text : List Char) (ty : String) (s e : Nat) : Bool :=
  if ty = "credit_debit_no" then verify_credit_card text s e
  else if ty = "cvv_no" then verify_cvv text s e
  else if ty = "phone_number" then verify_phone_number text s e
  else if ty = "dob" then
    verify_with_context text s e (["birth", "dob", "born"].map String.toList)
  else true

/-- One iteration of the inner detection loop: verify, suppress matches that
are substrings of an earlier-accepted differently-valued match, append. -/
def addMatch (text : List Char) (ty : String) (acc : List Entity) (m : Nat × Nat) :
    List Entity :=
  let value := pySlice text m.1 m.2
  if !matchAllowed text ty m.1 m.2 then acc
  else if acc.any (fun ex =>
      decide (ex.start ≤ m.1) && decide (m.2 ≤ ex.stop) && ex.value ≠ value) then acc
  else acc ++ [⟨m.1, m.2, ty, value⟩]

/-- `PIIMasker.detect_regex_entities`. -/
def detect_regex_entities (text : List Char) : List Entity :=
  patterns.foldl (fun acc pr => (finditer pr.2 text).foldl (addMatch text pr.1) acc) []

/-! ### Named-entity adapter -/

/-- One span produced by the external recognizer (`doc.ents` of spaCy). -/
structure SpacyEnt where
  start_char : Nat
  end_char : Nat
  label : String
  text : List Char
deriving DecidableEq, Repr

/-- Conversion of recognizer spans labelled `PER` or `PERSON` into
`full_name` entities (the loop body of `detect_name_entities`). -/
def nameEntitiesOf (ents : List SpacyEnt) : List Entity :=
  (ents.filter (fun e => e.label = "PER" || e.label = "PERSON")).map
    (fun e => ⟨e.start_char, e.end_char, "full_name", e.text⟩)

/-- `PIIMasker.detect_name_entities`.  The recognizer invocation
`self.nlp(text)` is the external capability; its outcome is passed in as an
`Except`.  The method body has no try/except, so a recognizer error
propagates out of the method unchanged. -/
def detect_name_entities (nlpResult : Except String (List SpacyEnt)) :
    Except String (List Entity) :=
  match nlpResult with
  | .error msg => .error msg
  | .ok ents => .ok (nameEntitiesOf ents)

/-! ### The overlap resolver `_resolve_overlaps` -/

/-- The sort key `(e.start, -(e.end - e.start))` of the resolver, as the
relation `key a ≤ key b`; used with a stable insertion sort this reproduces
Python's stable `sorted`. -/
def keyLe (a b : Entity) : Prop :=
  a.start < b.start ∨ (a.start = b.start ∧ entLen b ≤ entLen a)

instance : DecidableRel keyLe := fun a b => by
  unfold keyLe; exact inferInstance

/-- The sort key `e.start` of `detect_all_entities` line 290. -/
def startLe (a b : Entity) : Prop := a.start ≤ b.start

instance : DecidableRel startLe := fun a b => by
  unfold startLe; exact inferInstance

/-- The overlap length `max(0, min(a.end, b.end) - max(a.start, b.start))`. -/
def overlapLen (a b : Entity) : Int :=
  max 0 (min (a.stop : Int) (b.stop : Int) - max (a.start : Int) (b.start : Int))

/-- The inner scan of one fold step of `_resolve_overlaps` (lines 315–369):
walk the already-accepted entities, returning the retained ones together
with the `is_overlapped_or_contained` flag.  `continue` drops the accepted
entity and keeps scanning; `break` stops the scan, losing any entities not
yet walked, exactly as the Python loop does. -/
def scanStep (cur : Entity) : List Entity → List Entity × Bool
  | [] => ([], false)
  | res :: rest =>
    if overlapLen cur res > 0 then
      if cur.entity_type = "full_name" ∧ res.entity_type ≠ "full_name"
          ∧ ¬(res.start ≤ cur.start ∧ cur.stop ≤ res.stop) then
        ((scanStep cur rest).1, true)
      else if res.entity_type = "full_name" ∧ cur.entity_type ≠ "full_name"
          ∧ ¬(cur.start ≤ res.start ∧ res.stop ≤ cur.stop) then
        ([res], true)
      else if entLen res < entLen cur then
        ((scanStep cur rest).1, true)
      else
        ([res], true)
    else
      let t := scanStep cur rest
      (res :: t.1, t.2)

/-- One fold step of `_resolve_overlaps`: scan, append the candidate only
when nothing overlapped it, re-sort the accumulator by `(start, -length)`. -/
def resolveStep (acc : List Entity) (cur : Entity) : List Entity :=
  let r := scanStep cur acc
  List.insertionSort keyLe (if r.2 then r.1 else r.1 ++ [cur])

/-- Index-based strict containment used by the final pruning pass. -/
def strictlyInside (e o : Entity) : Prop :=
  o.start ≤ e.start ∧ e.stop ≤ o.stop ∧ entLen e < entLen o

instance : ∀ e o, Decidable (strictlyInside e o) := fun e o => by
  unfold strictlyInside; exact inferInstance

/-- The final pruning pass of `_resolve_overlaps` (lines 383–396): drop an
entity strictly contained in a strictly longer one at a different index. -/
def finalFilter (l : List Entity) : List Entity :=
  (l.enum.filter (fun ie =>
    !(l.enum.any (fun jo => decide (ie.1 ≠ jo.1) && decide (strictlyInside ie.2 jo.2))))).map
    Prod.snd

/-- `PIIMasker._resolve_overlaps`: fold the candidates in `(start, -length)`
order into an accumulator, then prune strict containments. -/
def _resolve_overlaps (entities : List Entity) : List Entity :=
  if entities.isEmpty then []
  else if ((List.insertionSort keyLe entities).foldl resolveStep []).isEmpty then []
  else finalFilter ((List.insertionSort keyLe entities).foldl resolveStep [])

/-! ### `detect_all_entities` and `mask_text` -/

/-- `PIIMasker.detect_all_entities`: regex entities, then recognizer
entities, sorted by start (stably), then overlap resolution.  A recognizer
error propagates: nothing in the method catches it. -/
def detect_all_entities (text : List Char)
    (nlpResult : Except String (List SpacyEnt)) : Except String (List Entity) :=
  match detect_name_entities nlpResult with
  | .error msg => .error msg
  | .ok name_entities =>
    let entities := detect_regex_entities text ++ name_entities
    let entities := List.insertionSort startLe entities
    .ok (_resolve_overlaps entities)

/-- The mask token `"[" + entity_type.upper() + "]"`. -/
def maskToken (ty : String) : List Char := '[' :: pyUpper ty.toList ++ [']']

/-- One iteration of the masking walk (lines 414–423): append the gap when
the entity starts past the cursor, append the mask token, move the cursor
to the entity's end. -/
def maskStep (text : List Char) (acc : List Char × Nat) (ent : Entity) :
    List Char × Nat :=
  ((if acc.2 < ent.start then acc.1 ++ pySlice text acc.2 ent.start else acc.1)
    ++ maskToken ent.entity_type, ent.stop)

/-- The text-reconstruction walk of `mask_text` (lines 411–428), applied to
an already-detected entity list. -/
def maskTextOk (text : List Char) (entities0 : List Entity) :
    List Char × List EntityDict :=
  let entity_info := entities0.map Entity.to_dict
  let entities := List.insertionSort keyLe entities0
  let step := entities.foldl (maskStep text) (([] : List Char), 0)
  (if step.2 < text.length then step.1 ++ pySlice text step.2 text.length
    else step.1, entity_info)

/-- `PIIMasker.mask_text`. -/
def mask_text (text : List Char) (nlpResult : Except String (List SpacyEnt)) :
    Except String (List Char × List EntityDict) :=
  match detect_all_entities text nlpResult with
  | .error msg => .error msg
  | .ok entities => .ok (maskTextOk text entities)

/-! ### Regex bounds lemmas -/

theorem mem_dedupFirst {x : Nat} : ∀ (seen l : List Nat), x ∈ dedupFirst seen l → x ∈ l := by
  intro seen l
  induction l generalizing seen with
  | nil => intro h; exact absurd h (List.not_mem_nil x)
  | cons a l ih =>
    intro h
    rw [dedupFirst] at h
    split at h
    · exact List.mem_cons_of_mem a (ih seen h)
    · rcases List.mem_cons.mp h with rfl | h'
      · exact List.mem_cons_self _ _
      · exact List.mem_cons_of_mem a (ih _ h')

theorem runLen_le (p : Char → Bool) (s : List Char) (i : Nat) :
    runLen p s i ≤ s.length - i := by
  unfold runLen
  have h := (List.takeWhile_sublist p (l := s.drop i)).length_le
  simpa using h

theorem clsRepEnds_bounds (p : Char → Bool) (lo cap : Nat) (s : List Char) (i : Nat)
    (hi : i ≤ s.length) :
    ∀ j ∈ clsRepEnds p lo cap s i, i + lo ≤ j ∧ j ≤ s.length := by
  intro j hj
  simp only [clsRepEnds] at hj
  split at hj
  · exact absurd hj (List.not_mem_nil j)
  · obtain ⟨k, hk, rfl⟩ := List.mem_map.mp hj
    rw [List.mem_range] at hk
    have hr := runLen_le p s i
    have hmin : min (runLen p s i) cap ≤ runLen p s i := Nat.min_le_left _ _
    omega

/-- End positions reported by `repEnds` stay within `[i, L]` when the body's
do. -/
theorem repEnds_bounds {f : Nat → List Nat} {L : Nat}
    (hf : ∀ i, i ≤ L → ∀ j ∈ f i, i ≤ j ∧ j ≤ L) :
    ∀ (hi lo i : Nat), i ≤ L → ∀ j ∈ repEnds f lo hi i, i ≤ j ∧ j ≤ L := by
  intro hi
  induction hi with
  | zero =>
    intro lo i hiL j hj
    rw [repEnds] at hj
    split at hj
    · rw [List.mem_singleton.mp hj]; exact ⟨Nat.le_refl _, hiL⟩
    · exact absurd hj (List.not_mem_nil j)
  | succ hi ih =>
    intro lo i hiL j hj
    rw [repEnds] at hj
    have hcont : ∀ j', j' ∈ (f i).flatMap (fun j0 => repEnds f (lo - 1) hi j0) →
        i ≤ j' ∧ j' ≤ L := by
      intro j' hj'
      obtain ⟨j0, hj0, hj'2⟩ := List.mem_flatMap.mp hj'
      obtain ⟨h1, h2⟩ := hf i hiL j0 hj0
      obtain ⟨h3, h4⟩ := ih (lo - 1) j0 h2 j' hj'2
      exact ⟨Nat.le_trans h1 h3, h4⟩
    split at hj
    · have := mem_dedupFirst _ _ hj
      rcases List.mem_append.mp this with h | h
      · exact hcont j h
      · rw [List.mem_singleton.mp h]; exact ⟨Nat.le_refl _, hiL⟩
    · exact hcont j (mem_dedupFirst _ _ hj)

/-- Every end position of a match is between its start and the text length. -/
theorem ends_bounds : ∀ (r : Rx) (s : List Char) (i : Nat), i ≤ s.length →
    ∀ j ∈ r.ends s i, i ≤ j ∧ j ≤ s.length := by
  intro r
  induction r with
  | eps =>
    intro s i hi j hj
    rw [List.mem_singleton.mp hj]; exact ⟨Nat.le_refl _, hi⟩
  | cls p =>
    intro s i hi j hj
    rw [Rx.ends] at hj
    split at hj
    next hlt =>
      split at hj
      · rw [List.mem_singleton.mp hj]
        exact ⟨Nat.le_succ _, hlt⟩
      · exact absurd hj (List.not_mem_nil j)
    next => exact absurd hj (List.not_mem_nil j)
  | cat a b iha ihb =>
    intro s i hi j hj
    rw [Rx.ends] at hj
    obtain ⟨j0, hj0, hj1⟩ := List.mem_flatMap.mp (mem_dedupFirst _ _ hj)
    obtain ⟨h1, h2⟩ := iha s i hi j0 hj0
    obtain ⟨h3, h4⟩ := ihb s j0 h2 j hj1
    exact ⟨Nat.le_trans h1 h3, h4⟩
  | alt a b iha ihb =>
    intro s i hi j hj
    rw [Rx.ends] at hj
    rcases List.mem_append.mp (mem_dedupFirst _ _ hj) with h | h
    · exact iha s i hi j h
    · exact ihb s i hi j h
  | opt a iha =>
    intro s i hi j hj
    rw [Rx.ends] at hj
    rcases List.mem_append.mp (mem_dedupFirst _ _ hj) with h | h
    · exact iha s i hi j h
    · rw [List.mem_singleton.mp h]; exact ⟨Nat.le_refl _, hi⟩
  | rep a lo hi iha =>
    intro s i hiL j hj
    rw [Rx.ends] at hj
    exact repEnds_bounds (fun i0 hi0 => iha s i0 hi0) hi lo i hiL j hj
  | clsRep p lo hi =>
    intro s i hiL j hj
    rw [Rx.ends] at hj
    obtain ⟨h1, h2⟩ := clsRepEnds_bounds p lo hi s i hiL j hj
    exact ⟨by omega, h2⟩
  | clsGe p lo =>
    intro s i hiL j hj
    rw [Rx.ends] at hj
    obtain ⟨h1, h2⟩ := clsRepEnds_bounds p lo _ s i hiL j hj
    exact ⟨by omega, h2⟩
  | wb =>
    intro s i hi j hj
    rw [Rx.ends] at hj
    split at hj
    · rw [List.mem_singleton.mp hj]; exact ⟨Nat.le_refl _, hi⟩
    · exact absurd hj (List.not_mem_nil j)
  | eos =>
    intro s i hi j hj
    rw [Rx.ends] at hj
    split at hj
    · rw [List.mem_singleton.mp hj]; exact ⟨Nat.le_refl _, hi⟩
    · exact absurd hj (List.not_mem_nil j)

/-- Syntactic check that a regex can only match a non-empty substring. -/
def nonNullable : Rx → Bool
  | .eps => false
  | .cls _ => true
  | .cat a b => nonNullable a || nonNullable b
  | .alt a b => nonNullable a && nonNullable b
  | .opt _ => false
  | .rep a lo _ => decide (1 ≤ lo) && nonNullable a
  | .clsRep _ lo _ => decide (1 ≤ lo)
  | .clsGe _ lo => decide (1 ≤ lo)
  | .wb => false
  | .eos => false

theorem repEnds_lt {f : Nat → List Nat} {L : Nat}
    (hf : ∀ i, i ≤ L → ∀ j ∈ f i, i ≤ j ∧ j ≤ L)
    (hflt : ∀ i, i ≤ L → ∀ j ∈ f i, i < j) :
    ∀ (hi lo i : Nat), 1 ≤ lo → i ≤ L → ∀ j ∈ repEnds f lo hi i, i < j := by
  intro hi
  induction hi with
  | zero =>
    intro lo i hlo hiL j hj
    rw [repEnds] at hj
    rw [if_neg (by omega)] at hj
    exact absurd hj (List.not_mem_nil j)
  | succ hi _ =>
    intro lo i hlo hiL j hj
    rw [repEnds] at hj
    rw [if_neg (by omega)] at hj
    obtain ⟨j0, hj0, hj1⟩ := List.mem_flatMap.mp (mem_dedupFirst _ _ hj)
    have h1 := hflt i hiL j0 hj0
    have h2 := (hf i hiL j0 hj0).2
    have h3 := (repEnds_bounds hf hi (lo - 1) j0 h2 j hj1).1
    omega

/-- A non-nullable regex always consumes at least one character. -/
theorem ends_lt : ∀ (r : Rx), nonNullable r = true → ∀ (s : List Char) (i : Nat),
    i ≤ s.length → ∀ j ∈ r.ends s i, i < j := by
  intro r
  induction r with
  | eps => intro h; simp [nonNullable] at h
  | cls p =>
    intro _ s i hi j hj
    rw [Rx.ends] at hj
    split at hj
    · split at hj
      · rw [List.mem_singleton.mp hj]; exact Nat.lt_succ_self _
      · exact absurd hj (List.not_mem_nil j)
    · exact absurd hj (List.not_mem_nil j)
  | cat a b iha ihb =>
    intro hnn s i hi j hj
    rw [Rx.ends] at hj
    obtain ⟨j0, hj0, hj1⟩ := List.mem_flatMap.mp (mem_dedupFirst _ _ hj)
    obtain ⟨h1, h2⟩ := ends_bounds a s i hi j0 hj0
    obtain ⟨h3, h4⟩ := ends_bounds b s j0 h2 j hj1
    have hnn' : nonNullable a = true ∨ nonNullable b = true := by
      simpa [nonNullable] using hnn
    rcases hnn' with hna | hnb
    · exact Nat.lt_of_lt_of_le (iha hna s i hi j0 hj0) h3
    · exact Nat.lt_of_le_of_lt h1 (ihb hnb s j0 h2 j hj1)
  | alt a b iha ihb =>
    intro hnn s i hi j hj
    rw [Rx.ends] at hj
    have hnn' : nonNullable a = true ∧ nonNullable b = true := by
      simpa [nonNullable] using hnn
    rcases List.mem_append.mp (mem_dedupFirst _ _ hj) with h | h
    · exact iha hnn'.1 s i hi j h
    · exact ihb hnn'.2 s i hi j h
  | opt a _ => intro h; simp [nonNullable] at h
  | rep a lo hi iha =>
    intro hnn s i hiL j hj
    have hnn' : 1 ≤ lo ∧ nonNullable a = true := by
      simpa [nonNullable] using hnn
    rw [Rx.ends] at hj
    exact repEnds_lt (fun i0 hi0 => ends_bounds a s i0 hi0)
      (fun i0 hi0 => iha hnn'.2 s i0 hi0) hi lo i hnn'.1 hiL j hj
  | clsRep p lo hi =>
    intro hnn s i hiL j hj
    rw [Rx.ends] at hj
    have h1 := (clsRepEnds_bounds p lo hi s i hiL j hj).1
    have hlo : 1 ≤ lo := by simpa [nonNullable] using hnn
    omega
  | clsGe p lo =>
    intro hnn s i hiL j hj
    rw [Rx.ends] at hj
    have h1 := (clsRepEnds_bounds p lo _ s i hiL j hj).1
    have hlo : 1 ≤ lo := by simpa [nonNullable] using hnn
    omega
  | wb => intro h; simp [nonNullable] at h
  | eos => intro h; simp [nonNullable] at h

/-- Every span reported by `finditer` on a non-nullable pattern is non-empty
and within the text. -/
theorem finditerAux_bounds (r : Rx) (s : List Char) (hnn : nonNullable r = true) :
    ∀ (fuel i : Nat), ∀ pe ∈ finditerAux r s fuel i, pe.1 < pe.2 ∧ pe.2 ≤ s.length := by
  intro fuel
  induction fuel with
  | zero => intro i pe hpe; exact absurd hpe (List.not_mem_nil pe)
  | succ fuel ih =>
    intro i pe hpe
    rw [finditerAux] at hpe
    split at hpe
    · next hiL =>
      rcases hm : r.matchEnd s i with _ | e
      · rw [hm] at hpe
        exact ih _ pe hpe
      · rw [hm] at hpe
        rcases List.mem_cons.mp hpe with rfl | hpe'
        · have hmem : e ∈ r.ends s i := List.mem_of_mem_head? hm
          exact ⟨ends_lt r hnn s i hiL e hmem, (ends_bounds r s i hiL e hmem).2⟩
        · exact ih _ pe hpe'
    · exact absurd hpe (List.not_mem_nil pe)

theorem finditer_bounds (r : Rx) (s : List Char) (hnn : nonNullable r = true) :
    ∀ pe ∈ finditer r s, pe.1 < pe.2 ∧ pe.2 ≤ s.length :=
  finditerAux_bounds r s hnn (s.length + 1) 0

/-! ### Resolver lemmas -/

/-- Non-overlap of two entities, the resolved-set invariant of the spec. -/
def nonOv (a b : Entity) : Prop := overlapLen a b = 0

theorem nonOv_symm : ∀ {a b : Entity}, nonOv a b → nonOv b a := by
  intro a b h
  unfold nonOv overlapLen at *
  omega

theorem nonOv_symmetric : Symmetric nonOv := fun _ _ h => nonOv_symm h

theorem not_overlap_iff (a b : Entity) : ¬ 0 < overlapLen a b ↔ nonOv a b := by
  unfold nonOv overlapLen
  omega

instance : IsTotal Entity keyLe :=
  ⟨fun a b => by unfold keyLe entLen; omega⟩

instance : IsTrans Entity keyLe :=
  ⟨fun a b c hab hbc => by unfold keyLe entLen at *; omega⟩

theorem keyLe_start_le {a b : Entity} (h : keyLe a b) : a.start ≤ b.start := by
  unfold keyLe at h
  omega

/-- The retained part of one inner scan is a sublist of the scanned
accumulator. -/
theorem scanStep_sublist (cur : Entity) :
    ∀ l : List Entity, List.Sublist (scanStep cur l).1 l := by
  intro l
  induction l with
  | nil => exact List.Sublist.refl _
  | cons res rest ih =>
    rw [scanStep]
    split
    · split
      · exact ih.trans (List.sublist_cons_self res rest)
      · split
        · exact List.Sublist.cons₂ res (List.nil_sublist rest)
        · split
          · exact ih.trans (List.sublist_cons_self res rest)
          · exact List.Sublist.cons₂ res (List.nil_sublist rest)
    · exact List.Sublist.cons₂ res ih

/-- When the candidate overlaps nothing in the accumulator, the scan keeps
everything and reports no overlap. -/
theorem scanStep_eq_of_not_overlap (cur : Entity) :
    ∀ l : List Entity, (∀ r ∈ l, ¬ 0 < overlapLen cur r) → scanStep cur l = (l, false) := by
  intro l
  induction l with
  | nil => intro _; rfl
  | cons res rest ih =>
    intro h
    rw [scanStep]
    rw [if_neg (h res (List.mem_cons_self res rest))]
    have := ih (fun r hr => h r (List.mem_cons_of_mem res hr))
    simp [this]

/-- When the scan reports no overlap, everything was kept and nothing
overlapped the candidate. -/
theorem scanStep_false_inv (cur : Entity) :
    ∀ l : List Entity, (scanStep cur l).2 = false →
      (scanStep cur l).1 = l ∧ ∀ r ∈ l, ¬ 0 < overlapLen cur r := by
  intro l
  induction l with
  | nil => intro _; exact ⟨rfl, by simp⟩
  | cons res rest ih =>
    intro h
    rw [scanStep] at h ⊢
    by_cases hov : 0 < overlapLen cur res
    · exfalso
      rw [if_pos hov] at h
      revert h
      split
      · simp
      · split
        · simp
        · split <;> simp
    · rw [if_neg hov] at h ⊢
      obtain ⟨h1, h2⟩ := ih h
      refine ⟨by simp [h1], ?_⟩
      intro r hr
      rcases List.mem_cons.mp hr with rfl | hr
      · exact hov
      · exact h2 r hr

/-- One fold step preserves mutual non-overlap of the accumulator. -/
theorem pairwise_nonOv_resolveStep (acc : List Entity) (cur : Entity)
    (h : acc.Pairwise nonOv) : (resolveStep acc cur).Pairwise nonOv := by
  unfold resolveStep
  have hperm := (List.perm_insertionSort keyLe
    (if (scanStep cur acc).2 then (scanStep cur acc).1 else (scanStep cur acc).1 ++ [cur])).symm
  refine List.Pairwise.perm ?_ hperm (fun {_ _} hxy => nonOv_symm hxy)
  by_cases hb : (scanStep cur acc).2
  · rw [if_pos hb]
    exact List.Pairwise.sublist (scanStep_sublist cur acc) h
  · rw [if_neg hb]
    obtain ⟨h1, h2⟩ := scanStep_false_inv cur acc (by simpa using hb)
    rw [h1]
    rw [List.pairwise_append]
    refine ⟨h, List.pairwise_singleton _ _, ?_⟩
    intro a ha b hb'
    rw [List.mem_singleton.mp hb']
    exact nonOv_symm ((not_overlap_iff cur a).mp (h2 a ha))

/-- The fold of `_resolve_overlaps` keeps the accumulator mutually
non-overlapping. -/
theorem pairwise_nonOv_foldl :
    ∀ (l acc : List Entity), acc.Pairwise nonOv →
      (l.foldl resolveStep acc).Pairwise nonOv
  | [], _, h => h
  | cur :: rest, acc, h =>
    pairwise_nonOv_foldl rest _ (pairwise_nonOv_resolveStep acc cur h)

/-- The fold of `_resolve_overlaps` keeps the accumulator sorted by the
resolver's key. -/
theorem sorted_foldl :
    ∀ (l acc : List Entity), List.Sorted keyLe acc →
      List.Sorted keyLe (l.foldl resolveStep acc)
  | [], _, h => h
  | cur :: rest, acc, _ =>
    sorted_foldl rest _ (by unfold resolveStep; exact List.sorted_insertionSort keyLe _)

/-- The final pruning pass returns a sublist. -/
theorem finalFilter_sublist (l : List Entity) : List.Sublist (finalFilter l) l := by
  unfold finalFilter
  have h1 := (List.filter_sublist (l := l.enum)
    (p := fun ie => !(l.enum.any
      (fun jo => decide (ie.1 ≠ jo.1) && decide (strictlyInside ie.2 jo.2)))))
  have h2 := h1.map Prod.snd
  have h3 : l.enum.map Prod.snd = l := by
    simpa [List.enum] using List.enumFrom_map_snd 0 l
  rwa [h3] at h2

/-- The output of `_resolve_overlaps` is pairwise non-overlapping. -/
theorem resolve_pairwise_core (es : List Entity) :
    (_resolve_overlaps es).Pairwise nonOv := by
  unfold _resolve_overlaps
  split
  · exact List.Pairwise.nil
  · split
    · exact List.Pairwise.nil
    · exact List.Pairwise.sublist (finalFilter_sublist _)
        (pairwise_nonOv_foldl _ [] List.Pairwise.nil)

/-- The output of `_resolve_overlaps` is sorted by the resolver's key. -/
theorem resolve_sorted_core (es : List Entity) :
    List.Sorted keyLe (_resolve_overlaps es) := by
  unfold _resolve_overlaps
  split
  · exact List.sorted_nil
  · split
    · exact List.sorted_nil
    · exact List.Pairwise.sublist (finalFilter_sublist _)
        (sorted_foldl _ [] List.sorted_nil)

/-- Membership after one fold step comes from the accumulator or is the
candidate itself. -/
theorem mem_resolveStep {e : Entity} {acc : List Entity} {cur : Entity}
    (h : e ∈ resolveStep acc cur) : e ∈ acc ∨ e = cur := by
  unfold resolveStep at h
  rw [List.mem_insertionSort] at h
  by_cases hb : (scanStep cur acc).2
  · rw [if_pos hb] at h
    exact Or.inl ((scanStep_sublist cur acc).mem h)
  · rw [if_neg hb] at h
    rcases List.mem_append.mp h with h | h
    · exact Or.inl ((scanStep_sublist cur acc).mem h)
    · exact Or.inr (List.mem_singleton.mp h)

theorem mem_foldl_resolve {e : Entity} :
    ∀ (l acc : List Entity), e ∈ l.foldl resolveStep acc → e ∈ acc ∨ e ∈ l := by
  intro l
  induction l with
  | nil => intro acc h; exact Or.inl h
  | cons cur rest ih =>
    intro acc h
    rcases ih _ h with h' | h'
    · rcases mem_resolveStep h' with h'' | rfl
      · exact Or.inl h''
      · exact Or.inr (List.mem_cons_self _ _)
    · exact Or.inr (List.mem_cons_of_mem _ h')

/-- Every member of the resolver's output is a member of its input. -/
theorem mem_resolve_core {e : Entity} {es : List Entity}
    (h : e ∈ _resolve_overlaps es) : e ∈ es := by
  unfold _resolve_overlaps at h
  split at h
  · exact absurd h (List.not_mem_nil e)
  · split at h
    · exact absurd h (List.not_mem_nil e)
    · have h1 := (finalFilter_sublist _).mem h
      rcases mem_foldl_resolve _ [] h1 with h2 | h2
      · exact absurd h2 (List.not_mem_nil e)
      · exact (List.mem_insertionSort keyLe).mp h2

/-! ### Fixpoint lemmas for idempotence -/

/-- Folding a sorted, mutually non-overlapping list onto a compatible
accumulator appends it unchanged. -/
theorem foldl_resolve_fixpoint :
    ∀ (l acc : List Entity), List.Sorted keyLe (acc ++ l) →
      (acc ++ l).Pairwise nonOv → l.foldl resolveStep acc = acc ++ l
  | [], acc, _, _ => by simp
  | cur :: rest, acc, hs, hp => by
    have hnov : ∀ r ∈ acc, ¬ 0 < overlapLen cur r := by
      intro r hr
      have h1 : nonOv r cur :=
        (List.pairwise_append.mp hp).2.2 r hr cur (List.mem_cons_self _ _)
      exact (not_overlap_iff cur r).mpr (nonOv_symm h1)
    have hscan := scanStep_eq_of_not_overlap cur acc hnov
    have hstep : resolveStep acc cur = acc ++ [cur] := by
      unfold resolveStep
      rw [hscan]
      have hsub : List.Sublist (acc ++ [cur]) (acc ++ cur :: rest) :=
        List.Sublist.append_left (List.Sublist.cons₂ cur (List.nil_sublist rest)) acc
      exact List.Sorted.insertionSort_eq (List.Pairwise.sublist hsub hs)
    show List.foldl resolveStep (resolveStep acc cur) rest = acc ++ cur :: rest
    rw [hstep]
    have := foldl_resolve_fixpoint rest (acc ++ [cur])
      (by simpa using hs) (by simpa using hp)
    simpa using this

/-- On a mutually non-overlapping list of entities with positive length,
the final pruning pass keeps everything: strict containment of a
positive-length entity forces a positive overlap. -/
theorem finalFilter_eq_self (l : List Entity) (hp : l.Pairwise nonOv)
    (hlen : ∀ e ∈ l, e.start < e.stop) : finalFilter l = l := by
  unfold finalFilter
  have hget := List.pairwise_iff_getElem.mp hp
  have hall : ∀ x ∈ l.enum,
      (!(l.enum.any fun jo => decide (x.1 ≠ jo.1) && decide (strictlyInside x.2 jo.2)))
        = true := by
    intro x hx
    simp only [Bool.not_eq_true', List.any_eq_false, Bool.and_eq_true,
      decide_eq_true_eq, not_and]
    intro jo hjo hne
    have hx' := List.mem_enum_iff_get?.mp hx
    have hjo' := List.mem_enum_iff_get?.mp hjo
    rw [List.get?_eq_some] at hx' hjo'
    obtain ⟨hxlt, hxe⟩ := hx'
    obtain ⟨hjlt, hje⟩ := hjo'
    have hnov : nonOv x.2 jo.2 := by
      rcases Nat.lt_trichotomy x.1 jo.1 with hlt | heq | hgt
      · rw [← hxe, ← hje]
        exact hget x.1 jo.1 hxlt hjlt hlt
      · exact absurd heq hne
      · rw [← hxe, ← hje]
        exact nonOv_symm (hget jo.1 x.1 hjlt hxlt hgt)
    have hxl : x.2.start < x.2.stop := hlen _ (hxe ▸ List.get_mem l _ _)
    intro hcontr
    unfold nonOv overlapLen at hnov
    unfold strictlyInside entLen at hcontr
    omega
  rw [List.filter_eq_self.mpr hall]
  simpa [List.enum] using List.enumFrom_map_snd 0 l

/-! ### Theorems -/

instance {ε α : Type} [DecidableEq ε] [DecidableEq α] : DecidableEq (Except ε α) :=
  fun a b =>
    match a, b with
    | .error x, .error y =>
      if h : x = y then isTrue (h ▸ rfl) else isFalse (fun hc => h (Except.error.inj hc))
    | .error _, .ok _ => isFalse (fun hc => Except.noConfusion hc)
    | .ok _, .error _ => isFalse (fun hc => Except.noConfusion hc)
    | .ok x, .ok y =>
      if h : x = y then isTrue (h ▸ rfl) else isFalse (fun hc => h (Except.ok.inj hc))

/-- C1.  Every list returned by `_resolve_overlaps`, for every input list of
entities each satisfying `start < stop` (with `0 ≤ start` by the `Nat`
representation), is pairwise non-overlapping —
`max(0, min(a.end, b.end) - max(a.start, b.start)) = 0` for any two distinct
members — and its members are ordered by ascending start.  An overlapping
candidate is never appended to the accumulator, removals keep mutual
non-overlap, each fold step re-sorts, and the final pruning pass only drops
elements. -/
theorem resolve_overlaps_invariant (es : List Entity)
    (hlen : ∀ e ∈ es, e.start < e.stop) :
    (_resolve_overlaps es).Pairwise (fun a b => overlapLen a b = 0) ∧
      (_resolve_overlaps es).Pairwise (fun a b => a.start ≤ b.start) := by
  refine ⟨resolve_pairwise_core es, ?_⟩
  exact (resolve_sorted_core es).imp (fun hk => keyLe_start_le hk)

/-- C1 witness: the invariant at a concrete input list. -/
theorem resolve_overlaps_invariant_witness :
    (_resolve_overlaps [⟨0, 4, "email", "a@bc".toList⟩, ⟨2, 5, "cvv_no", "299".toList⟩]).Pairwise
        (fun a b => overlapLen a b = 0) ∧
      (_resolve_overlaps [⟨0, 4, "email", "a@bc".toList⟩, ⟨2, 5, "cvv_no", "299".toList⟩]).Pairwise
        (fun a b => a.start ≤ b.start) :=
  resolve_overlaps_invariant
    [⟨0, 4, "email", "a@bc".toList⟩, ⟨2, 5, "cvv_no", "299".toList⟩]
    (by decide)

/-- C9.  Every entity in the list returned by `_resolve_overlaps` is one of
the entities of the input list, unchanged in all four fields: the resolver
only selects and discards candidates, never constructing or altering a
span. -/
theorem resolve_overlaps_mem (es : List Entity) (e : Entity)
    (h : e ∈ _resolve_overlaps es) : e ∈ es :=
  mem_resolve_core h

/-- C9 witness: membership transport at a concrete input. -/
theorem resolve_overlaps_mem_witness :
    (⟨0, 4, "email", "a@bc".toList⟩ : Entity)
      ∈ [(⟨0, 4, "email", "a@bc".toList⟩ : Entity)] :=
  resolve_overlaps_mem [⟨0, 4, "email", "a@bc".toList⟩] ⟨0, 4, "email", "a@bc".toList⟩
    (by decide)

/-- C10.  `_resolve_overlaps` is idempotent on entity lists whose members
satisfy `start < stop`: its output is sorted by the resolver's key and
mutually non-overlapping, so a second application re-sorts it trivially,
folds every member in without conflict, and prunes nothing. -/
theorem resolve_overlaps_idem (es : List Entity)
    (hlen : ∀ e ∈ es, e.start < e.stop) :
    _resolve_overlaps (_resolve_overlaps es) = _resolve_overlaps es := by
  have hmem : ∀ e ∈ _resolve_overlaps es, e ∈ es := fun e he => mem_resolve_core he
  have hlen' : ∀ e ∈ _resolve_overlaps es, e.start < e.stop :=
    fun e he => hlen e (hmem e he)
  have hp := resolve_pairwise_core es
  have hsorted := resolve_sorted_core es
  by_cases hne : (_resolve_overlaps es).isEmpty
  · rw [List.isEmpty_iff.mp hne]
    rfl
  · rw [_resolve_overlaps, if_neg (by simpa using hne)]
    rw [List.Sorted.insertionSort_eq hsorted]
    rw [foldl_resolve_fixpoint (_resolve_overlaps es) [] (by simpa using hsorted)
      (by simpa using hp)]
    rw [List.nil_append]
    rw [if_neg (by simpa using hne)]
    exact finalFilter_eq_self _ hp hlen'

/-- C10 witness: idempotence at a concrete input list. -/
theorem resolve_overlaps_idem_witness :
    _resolve_overlaps (_resolve_overlaps
        [⟨0, 4, "email", "a@bc".toList⟩, ⟨2, 5, "cvv_no", "299".toList⟩])
      = _resolve_overlaps
        [⟨0, 4, "email", "a@bc".toList⟩, ⟨2, 5, "cvv_no", "299".toList⟩] :=
  resolve_overlaps_idem
    [⟨0, 4, "email", "a@bc".toList⟩, ⟨2, 5, "cvv_no", "299".toList⟩]
    (by decide)

/-- C2.  In the resolver's fold, when the candidate overlaps exactly one
already-accepted entity, neither full_name rule applies, and the candidate
is strictly longer, the code drops BOTH entities: the accepted entity is
removed, but the candidate is also never appended, because the
`is_overlapped_or_contained` flag is set on any overlap (line 326), while
the code's own comments ("res_entity not added to temp_resolved if fully
replaced", docstring "2. Longer entities over shorter ones") promise that
the longer candidate wins.  On the input below — accepted `email` span
`[0,3)`, strictly longer `phone_number` candidate `[1,10)` — the resolver
returns the empty list instead of keeping the candidate. -/
theorem resolve_overlaps_drops_longer_candidate :
    _resolve_overlaps
      [⟨0, 3, "email", "aaa".toList⟩, ⟨1, 10, "phone_number", "bbbbbbbbb".toList⟩]
      = [] := by decide

/-- C3.  When a `full_name` candidate overlaps one accepted non-`full_name`
entity that does not fully contain it, the code does evict the accepted
entity (the `continue` on line 341), but the candidate itself is then never
appended — contradicting the comment "remove res_entity, current will be
added later".  On the input below — accepted `email` span `[0,5)`,
`full_name` candidate `[2,8)` — the resolver returns the empty list: the
accepted entity is gone and the `full_name` candidate is absent too. -/
theorem resolve_overlaps_drops_full_name_winner :
    _resolve_overlaps
      [⟨0, 5, "email", "aaaaa".toList⟩, ⟨2, 8, "full_name", "Bob Li".toList⟩]
      = [] := by decide

/-- C5.  The pipeline is deterministic: two invocations on equal texts with
equal recognizer outcomes produce equal masked results (text and entity
descriptors, in order), and the pattern detector yields the same candidate
list both times — the embedding is a pure function of its inputs, matching
the absence of hidden mutable state in the Python code (the only shared
state, `self.patterns`, is never written after initialization). -/
theorem pipeline_deterministic (t₁ t₂ : List Char)
    (r₁ r₂ : Except String (List SpacyEnt)) (ht : t₁ = t₂) (hr : r₁ = r₂) :
    mask_text t₁ r₁ = mask_text t₂ r₂ ∧
      detect_regex_entities t₁ = detect_regex_entities t₂ := by
  subst ht; subst hr; exact ⟨rfl, rfl⟩

/-- C5 witness: the two-run property instantiated on a concrete text and
recognizer outcome. -/
theorem pipeline_deterministic_witness :
    mask_text ("hi".toList) (.ok []) = mask_text ("hi".toList) (.ok []) ∧
      detect_regex_entities ("hi".toList) = detect_regex_entities ("hi".toList) :=
  pipeline_deterministic ("hi".toList) ("hi".toList) (.ok []) (.ok []) rfl rfl

/-- C6 counterexample.  When the recognizer invocation errors,
`detect_all_entities` does NOT fall back to the pattern-detector results:
there is no try/except in `detect_name_entities` or `detect_all_entities`,
so the error propagates and the pattern results (here `[]` for `"abc"`) are
not returned. -/
theorem detect_all_entities_no_recovery :
    detect_all_entities ("abc".toList) (.error "nlp failure")
      ≠ .ok (detect_regex_entities ("abc".toList)) := by decide

/-- C6 amended.  A recognizer error propagates unchanged out of
`detect_all_entities` (and hence fails the whole request, which only the
excluded API layer converts into an error response); the engine does not
substitute an empty name-entity set. -/
theorem detect_all_entities_propagates_error (text : List Char) (msg : String) :
    detect_all_entities text (.error msg) = .error msg := rfl

theorem pySlice_one (t : List Char) (n : Nat) (h : n < t.length) :
    pySlice t n (n + 1) = [t.get ⟨n, h⟩] := by
  unfold pySlice
  have h1 : n + 1 - n = 1 := by omega
  rw [h1, List.drop_eq_getElem_cons h]
  rfl

theorem pyIsDigitStr_singleton (c : Char) : pyIsDigitStr [c] = c.isDigit := by
  simp [pyIsDigitStr]

theorem pySlice_pred (t : List Char) (s : Nat) (h0 : 0 < s) (h : s - 1 < t.length) :
    pySlice t (s - 1) s = [t.get ⟨s - 1, h⟩] := by
  obtain ⟨k, rfl⟩ : ∃ k, s = k + 1 := ⟨s - 1, by omega⟩
  simpa using pySlice_one t k (by simpa using h)

/-- One detection-loop step preserves the invariant that every accepted
`cvv_no` entity passed `verify_cvv` at its own span. -/
theorem addMatch_cvv_invariant (text : List Char) (ty : String) (acc : List Entity)
    (m : Nat × Nat)
    (h : ∀ ent ∈ acc, ent.entity_type = "cvv_no" →
      verify_cvv text ent.start ent.stop = true) :
    ∀ ent ∈ addMatch text ty acc m, ent.entity_type = "cvv_no" →
      verify_cvv text ent.start ent.stop = true := by
  intro ent hent hty
  unfold addMatch at hent
  by_cases h1 : (!matchAllowed text ty m.1 m.2) = true
  · rw [if_pos h1] at hent
    exact h ent hent hty
  · rw [if_neg h1] at hent
    split at hent
    · exact h ent hent hty
    · rcases List.mem_append.mp hent with hmem | hmem
      · exact h ent hmem hty
      · have he : ent = ⟨m.1, m.2, ty, pySlice text m.1 m.2⟩ := List.mem_singleton.mp hmem
        have hallow : matchAllowed text ty m.1 m.2 = true := by
          simpa using h1
        have htyv : ty = "cvv_no" := by rw [he] at hty; exact hty
        rw [he]
        subst htyv
        simpa [matchAllowed] using hallow

theorem foldl_addMatch_cvv (text : List Char) (ty : String) :
    ∀ (ms : List (Nat × Nat)) (acc : List Entity),
      (∀ ent ∈ acc, ent.entity_type = "cvv_no" →
        verify_cvv text ent.start ent.stop = true) →
      ∀ ent ∈ ms.foldl (addMatch text ty) acc, ent.entity_type = "cvv_no" →
        verify_cvv text ent.start ent.stop = true
  | [], _, h => h
  | m :: ms, acc, h =>
    foldl_addMatch_cvv text ty ms _ (addMatch_cvv_invariant text ty acc m h)

/-- Every `cvv_no` entity the pattern detector accepts passed `verify_cvv`. -/
theorem detect_regex_cvv_verified (text : List Char) :
    ∀ ent ∈ detect_regex_entities text, ent.entity_type = "cvv_no" →
      verify_cvv text ent.start ent.stop = true := by
  suffices hall : ∀ (prs : List (String × Rx)) (acc : List Entity),
      (∀ ent ∈ acc, ent.entity_type = "cvv_no" →
        verify_cvv text ent.start ent.stop = true) →
      ∀ ent ∈ prs.foldl
        (fun acc pr => (finditer pr.2 text).foldl (addMatch text pr.1) acc) acc,
        ent.entity_type = "cvv_no" → verify_cvv text ent.start ent.stop = true by
    exact hall patterns [] (by simp)
  intro prs
  induction prs with
  | nil => intro acc h; exact h
  | cons pr prs ih =>
    intro acc h
    exact ih _ (foldl_addMatch_cvv text pr.1 (finditer pr.2 text) acc h)

/-- C8.  The CVV verifier returns `false` whenever the character immediately
before or after the match is a digit, and whenever the matched value's
length lies outside 3–4; and every `cvv_no` entity that
`detect_regex_entities` creates passed the verifier, so no `cvv_no` entity
arises from such a match. -/
theorem verify_cvv_rejections (text : List Char) (s e : Nat) :
    ((0 < s ∧ ∃ h : s - 1 < text.length, (text.get ⟨s - 1, h⟩).isDigit = true)
        ∨ (∃ h : e < text.length, (text.get ⟨e, h⟩).isDigit = true) →
      verify_cvv text s e = false)
    ∧ ((pySlice text s e).length < 3 ∨ 4 < (pySlice text s e).length →
      verify_cvv text s e = false)
    ∧ (∀ ent ∈ detect_regex_entities text, ent.entity_type = "cvv_no" →
      verify_cvv text ent.start ent.stop = true) := by
  refine ⟨?_, ?_, detect_regex_cvv_verified text⟩
  · intro hdig
    have hcond : (pyIsDigitStr (if 0 < s then pySlice text (s - 1) s else [])
        || pyIsDigitStr (if e < text.length then pySlice text e (e + 1) else []))
        = true := by
      rcases hdig with ⟨h0, hlt, hd⟩ | ⟨hlt, hd⟩
      · rw [if_pos h0, pySlice_pred text s h0 hlt, pyIsDigitStr_singleton, hd]
        simp
      · rw [if_pos hlt, pySlice_one text e hlt, pyIsDigitStr_singleton, hd]
        simp
    simp only [verify_cvv]
    rw [if_pos hcond]
  · intro hlen
    have hc2 : (!pyIsDigitStr (pySlice text s e)
        || decide ((pySlice text s e).length < 3)
        || decide ((pySlice text s e).length > 4)) = true := by
      rcases hlen with h | h
      · simp [h]
      · simp [show (pySlice text s e).length > 4 from h]
    simp only [verify_cvv]
    by_cases h1 : (pyIsDigitStr (if 0 < s then pySlice text (s - 1) s else [])
        || pyIsDigitStr (if e < text.length then pySlice text e (e + 1) else []))
        = true
    · rw [if_pos h1]
    · rw [if_neg h1, if_pos hc2]

/-- C8 witness: in `"9123a"` the candidate `"123"` (span `[1,4)`) is
immediately preceded by the digit `9`, so the verifier rejects it. -/
theorem verify_cvv_rejections_witness : verify_cvv ("9123a".toList) 1 4 = false :=
  (verify_cvv_rejections ("9123a".toList) 1 4).1
    (Or.inl ⟨by decide, by decide, by decide⟩)

def c7Text : List Char := "Call me at +1-415-555-0132 regarding the order".toList

/-- C7 counterexample.  On `"Call me at +1-415-555-0132 regarding the
order"` (recognizer returning no spans) the masked text is NOT
`"Call me at [PHONE_NUMBER] regarding the order"`: the phone pattern starts
with `\b`, and no word boundary exists between the space and `+`, so the
match cannot begin at the `+`. -/
theorem mask_c7_not_as_specified :
    (mask_text c7Text (.ok [])).map Prod.fst
      ≠ .ok ("Call me at [PHONE_NUMBER] regarding the order".toList) := by decide

/-! ### Masking partition lemmas (C4) -/

/-- All seven patterns of the library are non-nullable. -/
theorem patterns_nonNullable : ∀ pr ∈ patterns, nonNullable pr.2 = true := by decide

/-- Entity bounds preserved by one detection-loop step. -/
theorem addMatch_bounds (text : List Char) (ty : String) (acc : List Entity)
    (m : Nat × Nat) (hm : m.1 < m.2 ∧ m.2 ≤ text.length)
    (h : ∀ ent ∈ acc, ent.start < ent.stop ∧ ent.stop ≤ text.length) :
    ∀ ent ∈ addMatch text ty acc m, ent.start < ent.stop ∧ ent.stop ≤ text.length := by
  intro ent hent
  simp only [addMatch] at hent
  split at hent
  · exact h ent hent
  · split at hent
    · exact h ent hent
    · rcases List.mem_append.mp hent with hmem | hmem
      · exact h ent hmem
      · rw [List.mem_singleton.mp hmem]
        exact hm

theorem foldl_addMatch_bounds (text : List Char) (ty : String) :
    ∀ (ms : List (Nat × Nat)) (acc : List Entity),
      (∀ m ∈ ms, m.1 < m.2 ∧ m.2 ≤ text.length) →
      (∀ ent ∈ acc, ent.start < ent.stop ∧ ent.stop ≤ text.length) →
      ∀ ent ∈ ms.foldl (addMatch text ty) acc,
        ent.start < ent.stop ∧ ent.stop ≤ text.length
  | [], _, _, h => h
  | m :: ms, acc, hms, h =>
    foldl_addMatch_bounds text ty ms _
      (fun m' hm' => hms m' (List.mem_cons_of_mem m hm'))
      (addMatch_bounds text ty acc m (hms m (List.mem_cons_self m ms)) h)

/-- Every entity the pattern detector produces is a non-empty in-bounds
span of the text. -/
theorem detect_regex_bounds (text : List Char) :
    ∀ ent ∈ detect_regex_entities text,
      ent.start < ent.stop ∧ ent.stop ≤ text.length := by
  suffices hall : ∀ (prs : List (String × Rx)), (∀ pr ∈ prs, nonNullable pr.2 = true) →
      ∀ (acc : List Entity),
      (∀ ent ∈ acc, ent.start < ent.stop ∧ ent.stop ≤ text.length) →
      ∀ ent ∈ prs.foldl
        (fun acc pr => (finditer pr.2 text).foldl (addMatch text pr.1) acc) acc,
        ent.start < ent.stop ∧ ent.stop ≤ text.length by
    exact hall patterns patterns_nonNullable [] (by simp)
  intro prs
  induction prs with
  | nil => intro _ acc h; exact h
  | cons pr prs ih =>
    intro hnn acc h
    exact ih (fun pr' hpr' => hnn pr' (List.mem_cons_of_mem pr hpr')) _
      (foldl_addMatch_bounds text pr.1 (finditer pr.2 text) acc
        (finditer_bounds pr.2 text (hnn pr (List.mem_cons_self pr prs))) h)

/-- The pure success branch of `detect_all_entities`. -/
def detectAllOk (text : List Char) (sp : List SpacyEnt) : List Entity :=
  _resolve_overlaps
    (List.insertionSort startLe (detect_regex_entities text ++ nameEntitiesOf sp))

theorem detect_all_entities_ok (text : List Char) (sp : List SpacyEnt) :
    detect_all_entities text (.ok sp) = .ok (detectAllOk text sp) := rfl

/-- The spec's description of the masked text: walking the resolved
entities in order, emit the gap `text[prev_end:start]` verbatim, then the
mask token, and after the last entity the trailing text. -/
def maskSpec (text : List Char) : List Entity → Nat → List Char
  | [], cur => pySlice text cur text.length
  | ent :: rest, cur =>
    pySlice text cur ent.start ++ maskToken ent.entity_type
      ++ maskSpec text rest ent.stop

/-- The character positions of the original text visited by the walk, in
order: each gap's positions, each masked span's positions, and the
trailing gap's positions. -/
def walkPositions (n : Nat) : List Entity → Nat → List Nat
  | [], cur => List.range' cur (n - cur)
  | ent :: rest, cur =>
    List.range' cur (ent.start - cur) ++ List.range' ent.start (ent.stop - ent.start)
      ++ walkPositions n rest ent.stop

/-- The cursor discipline of the masking walk: each entity starts at or
after the cursor, ends at or after its start, and the final cursor is
within the text. -/
def okChain (n : Nat) : Nat → List Entity → Prop
  | cur, [] => cur ≤ n
  | cur, ent :: rest => cur ≤ ent.start ∧ ent.start ≤ ent.stop ∧ okChain n ent.stop rest

theorem okChain_le (n : Nat) : ∀ (l : List Entity) (cur : Nat), okChain n cur l → cur ≤ n
  | [], _, h => h
  | ent :: rest, cur, h =>
    Nat.le_trans (Nat.le_trans h.1 h.2.1) (okChain_le n rest ent.stop h.2.2)

/-- Under the cursor discipline the walk visits exactly the positions
`cur, cur+1, …, n-1`, each once, in order. -/
theorem walkPositions_spec (n : Nat) :
    ∀ (l : List Entity) (cur : Nat), okChain n cur l →
      walkPositions n l cur = List.range' cur (n - cur) := by
  intro l
  induction l with
  | nil => intro cur _; rfl
  | cons ent rest ih =>
    intro cur h
    obtain ⟨h1, h2, h3⟩ := h
    have hn := okChain_le n rest ent.stop h3
    rw [walkPositions, ih ent.stop h3]
    obtain ⟨a, ha⟩ := Nat.exists_eq_add_of_le h1
    obtain ⟨b, hb⟩ := Nat.exists_eq_add_of_le h2
    obtain ⟨c, hc⟩ := Nat.exists_eq_add_of_le hn
    rw [show ent.start - cur = a by omega, show ent.stop - ent.start = b by omega,
      show n - ent.stop = c by omega, show n - cur = a + b + c by omega,
      show ent.start = cur + a by omega, show ent.stop = (cur + a) + b by omega]
    rw [List.range'_append_1]
    rw [show cur + a + b = cur + (b + a) by omega]
    rw [List.range'_append_1]
    rw [show c + (b + a) = a + b + c by omega]

/-- Under the cursor discipline the fold of `mask_text` (with its final
trailing-gap append) produces exactly the spec's concatenation. -/
theorem maskFold_spec (text : List Char) :
    ∀ (l : List Entity) (parts : List Char) (cur : Nat),
      okChain text.length cur l →
      (if (l.foldl (maskStep text) (parts, cur)).2 < text.length
        then (l.foldl (maskStep text) (parts, cur)).1
          ++ pySlice text (l.foldl (maskStep text) (parts, cur)).2 text.length
        else (l.foldl (maskStep text) (parts, cur)).1)
      = parts ++ maskSpec text l cur := by
  intro l
  induction l with
  | nil =>
    intro parts cur h
    rw [maskSpec]
    simp only [List.foldl_nil]
    split
    · rfl
    · have hcur : cur = text.length := by
        have := h
        unfold okChain at this
        omega
      subst hcur
      simp [pySlice]
  | cons ent rest ih =>
    intro parts cur h
    obtain ⟨h1, h2, h3⟩ := h
    rw [maskSpec]
    simp only [List.foldl_cons]
    have hstep : maskStep text (parts, cur) ent
        = (parts ++ (pySlice text cur ent.start ++ maskToken ent.entity_type),
            ent.stop) := by
      unfold maskStep
      rcases Nat.lt_or_ge cur ent.start with hlt | hge
      · rw [if_pos hlt]
        simp
      · have hcur : cur = ent.start := by omega
        subst hcur
        rw [if_neg (by omega)]
        simp [pySlice]
    rw [hstep, ih _ ent.stop h3]
    simp

/-- Derives the cursor discipline from sortedness, mutual non-overlap and
in-bounds spans. -/
theorem okChain_of (n : Nat) :
    ∀ (l : List Entity) (cur : Nat), List.Sorted keyLe l → l.Pairwise nonOv →
      (∀ e ∈ l, e.start < e.stop ∧ e.stop ≤ n) → (∀ e ∈ l, cur ≤ e.start) →
      cur ≤ n → okChain n cur l := by
  intro l
  induction l with
  | nil => intro cur _ _ _ _ hn; exact hn
  | cons ent rest ih =>
    intro cur hs hp hb hc hn
    refine ⟨hc ent (List.mem_cons_self _ _), Nat.le_of_lt (hb ent (List.mem_cons_self _ _)).1, ?_⟩
    refine ih ent.stop hs.of_cons (List.Pairwise.of_cons hp) (fun e he => hb e (List.mem_cons_of_mem _ he)) ?_ (hb ent (List.mem_cons_self _ _)).2
    intro e he
    have hkey : keyLe ent e := List.rel_of_sorted_cons hs e he
    have hnov : nonOv ent e := List.rel_of_pairwise_cons hp he
    have hbe := hb e (List.mem_cons_of_mem _ he)
    have hstart := keyLe_start_le hkey
    unfold nonOv overlapLen at hnov
    omega

/-- C4.  For every text and every in-bounds recognizer output, the masked
text equals the concatenation — over the resolved entities sorted by
`(start, -length)` — of the verbatim gap `text[prev_end:start]` and the
mask token `"[" + uppercase(entity_type) + "]"`, followed by the verbatim
trailing text; and the walk's gap and mask segments visit every character
position of the original text exactly once, in order — masking is a total
non-duplicating partition of the text. -/
theorem mask_text_is_partition (text : List Char) (sp : List SpacyEnt)
    (hsp : ∀ ne ∈ nameEntitiesOf sp, ne.start < ne.stop ∧ ne.stop ≤ text.length) :
    mask_text text (.ok sp)
      = .ok (maskSpec text (List.insertionSort keyLe (detectAllOk text sp)) 0,
          (detectAllOk text sp).map Entity.to_dict)
    ∧ walkPositions text.length (List.insertionSort keyLe (detectAllOk text sp)) 0
      = List.range text.length := by
  have hbounds : ∀ e ∈ detectAllOk text sp,
      e.start < e.stop ∧ e.stop ≤ text.length := by
    intro e he
    have h1 := mem_resolve_core he
    rw [List.mem_insertionSort] at h1
    rcases List.mem_append.mp h1 with h2 | h2
    · exact detect_regex_bounds text e h2
    · exact hsp e h2
  have hp : (detectAllOk text sp).Pairwise nonOv := resolve_pairwise_core _
  have hs : List.Sorted keyLe (detectAllOk text sp) := resolve_sorted_core _
  have hsorteq : List.insertionSort keyLe (detectAllOk text sp) = detectAllOk text sp :=
    List.Sorted.insertionSort_eq hs
  have hchain : okChain text.length 0
      (List.insertionSort keyLe (detectAllOk text sp)) := by
    rw [hsorteq]
    exact okChain_of text.length _ 0 hs hp hbounds
      (fun e _ => Nat.zero_le _) (Nat.zero_le _)
  constructor
  · have hok : mask_text text (.ok sp) = .ok (maskTextOk text (detectAllOk text sp)) :=
      rfl
    rw [hok]
    unfold maskTextOk
    refine congrArg Except.ok (Prod.ext ?_ rfl)
    have := maskFold_spec text (List.insertionSort keyLe (detectAllOk text sp)) [] 0 hchain
    simpa using this
  · rw [List.range_eq_range']
    have := walkPositions_spec text.length _ 0 hchain
    simpa using this

/-- C4 witness: the partition property at a concrete text with no
recognizer spans. -/
theorem mask_text_is_partition_witness :
    mask_text ("hi".toList) (.ok [])
      = .ok (maskSpec ("hi".toList)
            (List.insertionSort keyLe (detectAllOk ("hi".toList) [])) 0,
          (detectAllOk ("hi".toList) []).map Entity.to_dict)
    ∧ walkPositions ("hi".toList).length
        (List.insertionSort keyLe (detectAllOk ("hi".toList) [])) 0
      = List.range ("hi".toList).length :=
  mask_text_is_partition ("hi".toList) [] (by simp [nameEntitiesOf])

/-- C7 amended.  The engine produces exactly one entity, of type
`phone_number`, spanning `[12,26)` — the value `"1-415-555-0132"`, which
excludes the leading `+` — and the masked text is
`"Call me at +[PHONE_NUMBER] regarding the order"`, with the `+` left
verbatim before the mask token. -/
theorem mask_c7_actual :
    mask_text c7Text (.ok [])
      = .ok ("Call me at +[PHONE_NUMBER] regarding the order".toList,
          [⟨(12, 26), "phone_number", "1-415-555-0132".toList⟩]) := by decide

end EmailClassification
